import Mathlib

/-!
Verification of the indexed FASTA access engine
(src/encoding/fasta/fasta_indexed.go).

The Go source is shallowly embedded as follows:

* `indexEntry` mirrors the Go struct `indexEntry`; the `uint64` fields
  become `Nat`, and every arithmetic operation that can wrap in Go is
  written with an explicit `% 2 ^ 64`.
* `parseIndex` mirrors `parseIndex` plus the regular expression
  `(\S+)\t(\d+)\t(\d+)\t(\d+)\t(\d+)`.  Go's `regexp.FindStringSubmatch`
  performs an unanchored leftmost search; for this pattern the match at a
  given start position is deterministic (each `\S+`/`\d+` run is maximal,
  because a shorter run would leave a non-tab character where a tab is
  required), so the search is modelled by trying `matchAt` on every
  suffix, left to right.  `strconv.ParseUint` failure (an all-digit field
  that is `≥ 2^64`) hits `must.Nil(err)`, which panics; this is the
  `ParseOutcome.panicked` constructor.  On a non-matching line the Go
  code returns `nil, fmt.Errorf(...)`: constructor `ParseOutcome.err`
  with the entry list the code actually returns (`[]`) and the offending
  line.
* `newLazyIndexed` builds the name → entry catalog by successive map
  assignment, modelled by `buildSeqs` (a `foldl` of function update).
  The `seqNames` slice is sorted from Go map iteration order, which is
  nondeterministic; no claim concerns `SeqNames`, so it is not modelled.
* `read` (the read-through cache) becomes `read` over a pure byte list
  `data` standing for the borrowed `io.ReadSeeker`.  The reader is
  modelled with the semantics of `bytes.Reader`/`os.File`: `Seek` to a
  nonnegative offset succeeds and returns it, a single `Read(p)` call
  returns `min (len p) (remaining)` bytes.  Error paths leave the cache
  window state behind un-modelled (the Go code can leave `bufOff`
  inconsistent with `buf` there); no verified execution continues after
  an error, and Go panics terminate the process.  `int64`/`int` overflow
  inside the cache arithmetic is not modelled; every verified execution
  keeps all offsets below `2 ^ 63`.
* `Get` mirrors `Get` step by step: the `end <= start` check, the map
  lookup, the `end > ent.length` check, the span arithmetic (all
  `uint64`, hence explicit `% 2 ^ 64`), the conversion of the offset and
  capacity through `int64`/`int` (`toInt64`), the cache read, and the
  copy loop that strips line-break bytes into `resultBuf`.  Go division
  and remainder by zero panic, modelled by the explicit `lineBase = 0`
  and `lineWidth = 0` checks at the program points where the first such
  division/remainder is evaluated.  Writing past the end of `resultBuf`
  panics in Go (`copyLoop` returns `none`).  The optional post-processing
  encodings (`CleanASCII`/`Seq8`) live in the external `biosimd` package
  (an out-of-scope collaborator); the engine is modelled with the default
  raw encoding.

The data-file layout (`physLen`, `layoutByte`, `goodData`) models a data
source that matches an index entry: lines of `lineBase` bases occupying
`lineWidth` bytes, the last line terminated by its line-break bytes.
-/

namespace Fasta

/-- Modulus of Go `uint64` arithmetic. -/
def U64 : Nat := 2 ^ 64

/-- Conversion of a `uint64` value to Go `int64` (two's complement). -/
def toInt64 (x : Nat) : Int := if x < 2 ^ 63 then (x : Int) else (x : Int) - (2 ^ 64 : Int)

/-- Go struct `indexEntry`: one parsed index line. -/
structure indexEntry where
  name : String
  length : Nat
  offset : Nat
  lineBase : Nat
  lineWidth : Nat
deriving DecidableEq

/-- Go whitespace class `\s` of the `regexp` package: `[\t\n\f\r ]`. -/
def goIsSpace (c : Char) : Bool :=
  c = '\t' || c = '\n' || c = Char.ofNat 12 || c = '\r' || c = ' '

/-- Digit class `\d` of the `regexp` package. -/
def isDigitC (c : Char) : Bool := '0' ≤ c && c ≤ '9'

/-- Capture groups of `(\S+)\t(\d+)\t(\d+)\t(\d+)\t(\d+)`. -/
structure RegexGroups where
  g1 : List Char
  g2 : List Char
  g3 : List Char
  g4 : List Char
  g5 : List Char
deriving DecidableEq

/-- Match `(\d+)\t`, returning the digit group and the rest. -/
def matchNumTab (s : List Char) : Option (List Char × List Char) :=
  let g := s.takeWhile isDigitC
  let r := s.dropWhile isDigitC
  if g.isEmpty then none
  else
    match r with
    | '\t' :: r2 => some (g, r2)
    | _ => none

/-- Match the whole pattern at the start of `s`. -/
def matchAt (s : List Char) : Option RegexGroups :=
  let g1 := s.takeWhile (fun c => !goIsSpace c)
  let r1 := s.dropWhile (fun c => !goIsSpace c)
  if g1.isEmpty then none
  else
    match r1 with
    | '\t' :: r2 =>
      match matchNumTab r2 with
      | none => none
      | some (g2, r3) =>
        match matchNumTab r3 with
        | none => none
        | some (g3, r4) =>
          match matchNumTab r4 with
          | none => none
          | some (g4, r5) =>
            let g5 := r5.takeWhile isDigitC
            if g5.isEmpty then none else some ⟨g1, g2, g3, g4, g5⟩
    | _ => none

/-- Unanchored leftmost search of the index-line pattern
(`indexRegExp.FindStringSubmatch`). -/
def findMatch : List Char → Option RegexGroups
  | [] => none
  | c :: rest =>
    match matchAt (c :: rest) with
    | some g => some g
    | none => findMatch rest

/-- Value of an all-digit field (`strconv.ParseUint` before its range
check). -/
def digitsToNat (ds : List Char) : Nat :=
  ds.foldl (fun n c => n * 10 + (c.toNat - 48)) 0

/-- Outcome of `parseIndex`: entries on success; on a non-matching line
the Go code returns `nil` entries together with the error naming the
line; `must.Nil` panics when an all-digit field overflows `uint64`. -/
inductive ParseOutcome where
  | ok (entries : List indexEntry)
  | err (entries : List indexEntry) (line : List Char)
  | panicked
deriving DecidableEq

/-- Entry built from the five capture groups. -/
def entryOfGroups (g : RegexGroups) : indexEntry :=
  ⟨String.mk g.g1, digitsToNat g.g2, digitsToNat g.g3, digitsToNat g.g4, digitsToNat g.g5⟩

/-- All four numeric fields fit in `uint64` (otherwise `must.Nil`
panics). -/
def groupsFit (g : RegexGroups) : Bool :=
  decide (digitsToNat g.g2 < U64) && decide (digitsToNat g.g3 < U64) &&
    decide (digitsToNat g.g4 < U64) && decide (digitsToNat g.g5 < U64)

/-- Go `parseIndex`, over the list of scanned lines. -/
def parseIndex : List (List Char) → ParseOutcome
  | [] => .ok []
  | line :: rest =>
    match findMatch line with
    | none => .err [] line
    | some g =>
      if groupsFit g then
        match parseIndex rest with
        | .ok es => .ok (entryOfGroups g :: es)
        | .err es l => .err es l
        | .panicked => .panicked
      else .panicked

/-- Whether one line parses without error and without panic. -/
def lineParses (line : List Char) : Bool :=
  match findMatch line with
  | none => false
  | some g => groupsFit g

/-- Discriminator for the error outcome (the Go `Invalid index line`
`fmt.Errorf`). -/
def isFormatError : ParseOutcome → Bool
  | .err _ _ => true
  | _ => false

/-- Entry list a caller receives from `parseIndex` (Go's first return
value; `nil` after a panic is moot since the process dies). -/
def entriesOf : ParseOutcome → List indexEntry
  | .ok es => es
  | .err es _ => es
  | .panicked => []

/-- The name → entry catalog of `newLazyIndexed`: successive Go map
assignment `f.seqs[entry.name] = entry`, so a later entry overwrites an
earlier one with the same name. -/
def buildSeqs (index : List indexEntry) : String → Option indexEntry :=
  index.foldl (fun m ent => fun n => if n = ent.name then some ent else m n)
    (fun _ => none)

/-- The catalog part of Go struct `indexedFasta` (the `seqNames` slice
is only used by `SeqNames`, which no claim concerns). -/
structure indexedFasta where
  seqs : String → Option indexEntry

/-- Go `newLazyIndexed` (the part visible to `Len`/`Get`). -/
def newLazyIndexed (index : List indexEntry) : indexedFasta :=
  ⟨buildSeqs index⟩

/-- Result of `NewIndexed`. -/
inductive ConstructResult where
  | ok (f : indexedFasta)
  | formatError (line : List Char)
  | panicked

/-- Go `NewIndexed`: parse the index, then build the lazy engine. -/
def NewIndexed (lines : List (List Char)) : ConstructResult :=
  match parseIndex lines with
  | .ok es => .ok (newLazyIndexed es)
  | .err _ line => .formatError line
  | .panicked => .panicked

/-- Go `Len`: `some length` on success, `none` for the
`sequence not found in index` error. -/
def Len (f : indexedFasta) (seqName : String) : Option Nat :=
  (f.seqs seqName).map indexEntry.length

/-- Mutable state of the engine: the cache window (`bufOff`, `buf`) and
the reused result buffer. -/
structure FastaState where
  bufOff : Int
  buf : List Nat
  resultBuf : List Nat
deriving DecidableEq

/-- A freshly constructed engine's state. -/
def initialState : FastaState := ⟨0, [], []⟩

/-- Go `resizeBuf`; capacity is modelled as length (stale bytes beyond a
previous shorter fill are visible only on error paths that no verified
execution continues past). -/
def resizeBuf (buf : List Nat) (n : Nat) : List Nat :=
  if buf.length < n then List.replicate n 0 else buf.take n

/-- Result of the cache `read`. -/
inductive ReadResult where
  | ok (bytes : List Nat) (st : FastaState)
  | errSeek
  | errEOF
  | panicked
deriving DecidableEq

/-- Go `(*indexedFasta).read`: serve `[off, off+n)` from the window, or
seek and refill.  `errSeek` is the seek failure (negative offset),
`errEOF` the `unexpected end of file` error, `panicked` the slice-bounds
panics (reachable only with a negative `n`, i.e. a wrapped capacity). -/
def read (data : List Nat) (st : FastaState) (off n : Int) : ReadResult :=
  let limit := off + n
  if off < st.bufOff ∨ limit > st.bufOff + (st.buf.length : Int) then
    if off < 0 then .errSeek
    else
      let bufSize : Int := if 8192 < n then n else 8192
      let avail : Int := (data.length : Int) - off
      let bytesRead : Int := min bufSize (max avail 0)
      if bytesRead < n then .errEOF
      else
        let newBuf := (data.drop off.toNat).take bytesRead.toNat
        if limit > off + (newBuf.length : Int) then .panicked
        else if n < 0 then .panicked
        else .ok (newBuf.take n.toNat) { st with bufOff := off, buf := newBuf }
  else
    if n < 0 then .panicked
    else .ok ((st.buf.drop (off - st.bufOff).toNat).take n.toNat) st

/-- Go `charsPerNewline := ent.lineWidth - ent.lineBase` (uint64
subtraction, wrapping). -/
def charsPerNewline (ent : indexEntry) : Nat :=
  (U64 + ent.lineWidth - ent.lineBase) % U64

/-- Go `offset := ent.offset + start + charsPerNewline*(start/ent.lineBase)`
(each uint64 operation wraps). -/
def physOffset (ent : indexEntry) (start : Nat) : Nat :=
  ((ent.offset + start) % U64 + charsPerNewline ent * (start / ent.lineBase) % U64) % U64

/-- Go `firstLineBases := ent.lineBase - (start % ent.lineBase)` (cannot
underflow: `start % lineBase < lineBase` whenever it is evaluated). -/
def firstLineBases (ent : indexEntry) (start : Nat) : Nat :=
  ent.lineBase - start % ent.lineBase

/-- Go `newlinesToRead`. -/
def newlinesToRead (ent : indexEntry) (start e : Nat) : Nat :=
  if firstLineBases ent start < e - start then
    (1 + (e - start - firstLineBases ent start) / ent.lineBase) % U64
  else 0

/-- Go `capacity := end - start + newlinesToRead*charsPerNewline`. -/
def readCapacity (ent : indexEntry) (start e : Nat) : Nat :=
  (e - start + newlinesToRead ent start e * charsPerNewline ent % U64) % U64

/-- Go `linePos := (offset - ent.offset) % ent.lineWidth` (uint64
subtraction, then remainder). -/
def initLinePos (ent : indexEntry) (start : Nat) : Nat :=
  ((U64 + physOffset ent start - ent.offset) % U64) % ent.lineWidth

/-- One step of the loop counter: `linePos++`, reset at `lineWidth`. -/
def nextLinePos (lineWidth lp : Nat) : Nat :=
  if lp + 1 = lineWidth then 0 else lp + 1

/-- The copy loop of `Get`: walk the raw bytes, copy those at cycle
positions `< lineBase` into `resultBuf`.  Writing past the end of
`resultBuf` is a Go index-out-of-range panic (`none`). -/
def copyLoop (lineBase lineWidth : Nat) :
    List Nat → Nat → Nat → List Nat → Option (List Nat)
  | [], _, _, resultBuf => some resultBuf
  | b :: rest, lp, resultPos, resultBuf =>
    if lp < lineBase then
      if resultPos < resultBuf.length then
        copyLoop lineBase lineWidth rest (nextLinePos lineWidth lp) (resultPos + 1)
          (resultBuf.set resultPos b)
      else none
    else copyLoop lineBase lineWidth rest (nextLinePos lineWidth lp) resultPos resultBuf

/-- Result of `Get`. -/
inductive GetResult where
  | ok (s : List Nat)
  | errInvalidRange
  | errNotFound
  | errPastEnd
  | errSeek
  | errEOF
  | panicked
deriving DecidableEq

/-- Go `(*indexedFasta).Get`.  The byte string is a `List Nat`; `data`
is the borrowed data source.  Checks appear in source order; the
`lineBase = 0` (resp. `lineWidth = 0`) test models the Go
division-by-zero (resp. remainder-by-zero) panic at the program point
where `start / ent.lineBase` (resp. `% ent.lineWidth`) is evaluated. -/
def Get (f : indexedFasta) (data : List Nat) (st : FastaState)
    (seqName : String) (start e : Nat) : GetResult × FastaState :=
  if e ≤ start then (.errInvalidRange, st)
  else
    match f.seqs seqName with
    | none => (.errNotFound, st)
    | some ent =>
      if ent.length < e then (.errPastEnd, st)
      else if ent.lineBase = 0 then (.panicked, st)
      else
        match read data st (toInt64 (physOffset ent start)) (toInt64 (readCapacity ent start e)) with
        | .errSeek => (.errSeek, st)
        | .errEOF => (.errEOF, st)
        | .panicked => (.panicked, st)
        | .ok buffer st1 =>
          if ent.lineWidth = 0 then (.panicked, st1)
          else
            match copyLoop ent.lineBase ent.lineWidth buffer (initLinePos ent start) 0
                (resizeBuf st1.resultBuf (e - start)) with
            | none => (.panicked, st1)
            | some res => (.ok res, { st1 with resultBuf := res })

/-! Data-file layout described by an index entry. -/

/-- The line-break byte used by the modelled data files. -/
def newlineByte : Nat := 10

/-- Logical base index of a physical data position. -/
def phi (lineBase lineWidth p : Nat) : Nat :=
  p / lineWidth * lineBase + p % lineWidth

/-- Physical position of a logical base index. -/
def psi (lineBase lineWidth j : Nat) : Nat :=
  j / lineBase * lineWidth + j % lineBase

/-- Number of physical lines of a sequence (`⌈length / lineBase⌉`). -/
def nLines (ent : indexEntry) : Nat :=
  (ent.length + ent.lineBase - 1) / ent.lineBase

/-- Physical extent of a sequence: every line, the last included,
carries its `lineWidth - lineBase` break bytes. -/
def physLen (ent : indexEntry) : Nat :=
  ent.length + nLines ent * (ent.lineWidth - ent.lineBase)

/-- Byte at relative physical position `p` of a sequence whose bases are
`seq 0, seq 1, ...`: a base when the cycle position is below `lineBase`
and the position maps to a base index below the length, otherwise a
line-break byte (the positions past the last base of a short final line
are its terminating break bytes). -/
def layoutByte (ent : indexEntry) (seq : Nat → Nat) (p : Nat) : Nat :=
  if p % ent.lineWidth < ent.lineBase ∧ phi ent.lineBase ent.lineWidth p < ent.length then
    seq (phi ent.lineBase ent.lineWidth p)
  else newlineByte

/-- The data source holds, at byte offset `ent.offset + p` for every `p`
below the physical extent, exactly the byte the index entry describes. -/
def goodData (ent : indexEntry) (seq : Nat → Nat) (data : List Nat) : Prop :=
  ent.offset + physLen ent ≤ data.length ∧
    ∀ p, p < physLen ent → data.getD (ent.offset + p) 0 = layoutByte ent seq p

instance goodDataDecidable (ent : indexEntry) (seq : Nat → Nat) (data : List Nat) :
    Decidable (goodData ent seq data) := by
  unfold goodData; infer_instance

/-- Cache-window invariant: the window is genuine file content. -/
def CacheInv (data : List Nat) (st : FastaState) : Prop :=
  0 ≤ st.bufOff ∧ st.bufOff.toNat + st.buf.length ≤ data.length ∧
    st.buf = (data.drop st.bufOff.toNat).take st.buf.length

instance cacheInvDecidable (data : List Nat) (st : FastaState) :
    Decidable (CacheInv data st) := by
  unfold CacheInv; infer_instance

/-- Reference strip of a raw byte span (what the copy loop produces when
it does not overflow the result buffer). -/
def stripPure (lineBase lineWidth : Nat) : List Nat → Nat → List Nat
  | [], _ => []
  | b :: rest, lp =>
    (if lp < lineBase then [b] else []) ++
      stripPure lineBase lineWidth rest (nextLinePos lineWidth lp)

/-- Physical data positions (cycle position `< lineBase`) within
`[p0, p0 + c)`. -/
def enumPos (lineBase lineWidth p0 c : Nat) : List Nat :=
  (List.range' p0 c).filter (fun p => decide (p % lineWidth < lineBase))

/-- Number of positions of the computed physical span whose cycle
position modulo `lineWidth` is `< lineBase`. -/
def spanDataCount (ent : indexEntry) (s e : Nat) : Nat :=
  ((List.range (readCapacity ent s e)).filter
    (fun i => decide ((initLinePos ent s + i) % ent.lineWidth < ent.lineBase))).length

/-! Proofs. -/

/-! Arithmetic of the logical/physical position maps. -/

lemma psi_eq (lb lw j : Nat) (hlw : lb ≤ lw) :
    psi lb lw j = j + (lw - lb) * (j / lb) := by
  unfold psi
  have h1 : j / lb * lb + j % lb = j := by
    rw [Nat.mul_comm]
    exact Nat.div_add_mod j lb
  have h2 : j / lb * lw = j / lb * lb + (lw - lb) * (j / lb) := by
    rw [Nat.mul_comm (lw - lb) (j / lb), ← Nat.mul_add]
    congr 1
    omega
  omega

lemma psi_mod (lb lw j : Nat) (hlb : 0 < lb) (hlw : lb ≤ lw) :
    psi lb lw j % lw = j % lb := by
  unfold psi
  rw [Nat.mul_comm (j / lb) lw, Nat.mul_add_mod]
  exact Nat.mod_eq_of_lt (lt_of_lt_of_le (Nat.mod_lt j hlb) hlw)

lemma psi_div (lb lw j : Nat) (hlb : 0 < lb) (hlw : lb ≤ lw) :
    psi lb lw j / lw = j / lb := by
  unfold psi
  rw [Nat.mul_comm (j / lb) lw, Nat.mul_add_div (by omega),
    Nat.div_eq_of_lt (lt_of_lt_of_le (Nat.mod_lt j hlb) hlw), Nat.add_zero]

lemma phi_psi (lb lw j : Nat) (hlb : 0 < lb) (hlw : lb ≤ lw) :
    phi lb lw (psi lb lw j) = j := by
  unfold phi
  rw [psi_div lb lw j hlb hlw, psi_mod lb lw j hlb hlw, Nat.mul_comm]
  exact Nat.div_add_mod j lb

lemma psi_data (lb lw j : Nat) (hlb : 0 < lb) (hlw : lb ≤ lw) :
    psi lb lw j % lw < lb := by
  rw [psi_mod lb lw j hlb hlw]
  exact Nat.mod_lt j hlb

lemma mod_pred_of_dvd_succ (lb j : Nat) (hlb : 0 < lb) (h : lb ∣ (j + 1)) :
    j % lb = lb - 1 := by
  have h0 : (j + 1) % lb = 0 := Nat.mod_eq_zero_of_dvd h
  have h1 : (j % lb + 1) % lb = 0 := by rw [Nat.mod_add_mod, h0]
  have h2 : j % lb < lb := Nat.mod_lt j hlb
  rcases Nat.lt_or_ge (j % lb + 1) lb with h3 | h3
  · rw [Nat.mod_eq_of_lt h3] at h1
    omega
  · omega

lemma psi_succ_dvd (lb lw j : Nat) (hlw : lb ≤ lw) (h : lb ∣ (j + 1)) :
    psi lb lw (j + 1) = psi lb lw j + 1 + (lw - lb) := by
  rw [psi_eq lb lw (j + 1) hlw, psi_eq lb lw j hlw]
  have h1 : (j + 1) / lb = j / lb + 1 := by rw [Nat.succ_div, if_pos h]
  rw [h1, Nat.mul_add, Nat.mul_one]
  omega

lemma psi_succ_ndvd (lb lw j : Nat) (hlw : lb ≤ lw) (h : ¬ lb ∣ (j + 1)) :
    psi lb lw (j + 1) = psi lb lw j + 1 := by
  rw [psi_eq lb lw (j + 1) hlw, psi_eq lb lw j hlw]
  have h1 : (j + 1) / lb = j / lb := by rw [Nat.succ_div, if_neg h, Nat.add_zero]
  rw [h1]
  omega

lemma psi_lt_succ (lb lw j : Nat) (hlw : lb ≤ lw) :
    psi lb lw j < psi lb lw (j + 1) := by
  by_cases h : lb ∣ (j + 1)
  · rw [psi_succ_dvd lb lw j hlw h]; omega
  · rw [psi_succ_ndvd lb lw j hlw h]; omega

lemma psi_lt_psi (lb lw : Nat) (hlw : lb ≤ lw) :
    ∀ j k, j < k → psi lb lw j < psi lb lw k := by
  intro j k
  induction k with
  | zero => omega
  | succ k ih =>
    intro h
    rcases Nat.lt_or_ge j k with h2 | h2
    · exact lt_trans (ih h2) (psi_lt_succ lb lw k hlw)
    · have hjk : j = k := by omega
      subst hjk
      exact psi_lt_succ lb lw j hlw

lemma psi_le_psi (lb lw : Nat) (hlw : lb ≤ lw) (j k : Nat) (h : j ≤ k) :
    psi lb lw j ≤ psi lb lw k := by
  rcases Nat.lt_or_ge j k with h2 | h2
  · exact le_of_lt (psi_lt_psi lb lw hlw j k h2)
  · have hjk : j = k := by omega
    subst hjk
    exact le_refl _

/-- Every physical position strictly between two consecutive data
positions is a line-break position. -/
lemma between_not_data (lb lw j p : Nat) (hlb : 0 < lb) (hlw : lb ≤ lw)
    (h1 : psi lb lw j < p) (h2 : p < psi lb lw (j + 1)) : lb ≤ p % lw := by
  by_cases hdvd : lb ∣ (j + 1)
  · have hr : j % lb = lb - 1 := mod_pred_of_dvd_succ lb j hlb hdvd
    have hs : psi lb lw (j + 1) = psi lb lw j + 1 + (lw - lb) :=
      psi_succ_dvd lb lw j hlw hdvd
    have hpsi : psi lb lw j = j / lb * lw + (lb - 1) := by
      unfold psi
      rw [hr]
    have ht1 : j / lb * lw + lb ≤ p := by omega
    have ht2 : p < j / lb * lw + lw := by omega
    have hp : p = lw * (j / lb) + (p - j / lb * lw) := by
      rw [Nat.mul_comm]
      omega
    rw [hp, Nat.mul_add_mod, Nat.mod_eq_of_lt (by omega)]
    omega
  · have hs : psi lb lw (j + 1) = psi lb lw j + 1 :=
      psi_succ_ndvd lb lw j hlw hdvd
    omega

/-! Enumeration of the data positions of a physical span. -/

lemma enumPos_zero (lb lw p : Nat) : enumPos lb lw p 0 = [] := rfl

lemma enumPos_succ_data (lb lw p c : Nat) (h : p % lw < lb) :
    enumPos lb lw p (c + 1) = p :: enumPos lb lw (p + 1) c := by
  unfold enumPos
  rw [List.range'_succ, List.filter_cons, if_pos (decide_eq_true h)]

lemma enumPos_succ_skip (lb lw p c : Nat) (h : ¬ p % lw < lb) :
    enumPos lb lw p (c + 1) = enumPos lb lw (p + 1) c := by
  unfold enumPos
  rw [List.range'_succ, List.filter_cons, if_neg (by simpa using h)]

lemma enumPos_nil (lb lw : Nat) :
    ∀ c p, (∀ q, p ≤ q → q < p + c → lb ≤ q % lw) → enumPos lb lw p c = [] := by
  intro c
  induction c with
  | zero => intro p _; rfl
  | succ c ih =>
    intro p h
    rw [enumPos_succ_skip lb lw p c (by have := h p (le_refl p) (by omega); omega)]
    exact ih (p + 1) (fun q hq1 hq2 => h q (by omega) (by omega))

lemma enumPos_skip_to (lb lw : Nat) :
    ∀ k a c, k ≤ c → (∀ q, a ≤ q → q < a + k → lb ≤ q % lw) →
    enumPos lb lw a c = enumPos lb lw (a + k) (c - k) := by
  intro k
  induction k with
  | zero => intro a c _ _; simp
  | succ k ih =>
    intro a c hk h
    obtain ⟨c2, rfl⟩ : ∃ c2, c = c2 + 1 := ⟨c - 1, by omega⟩
    rw [enumPos_succ_skip lb lw a c2 (by have := h a (le_refl a) (by omega); omega)]
    rw [ih (a + 1) c2 (by omega) (fun q hq1 hq2 => h q (by omega) (by omega))]
    congr 1 <;> omega

/-- The data positions of the span starting at `psi s` and ending
anywhere after `psi (e-1)` and at or before `psi e` are exactly the
images under `psi` of the logical indices `s, ..., e-1`. -/
lemma enumPos_span (lb lw : Nat) (hlb : 0 < lb) (hlw : lb ≤ lw) :
    ∀ n s P, psi lb lw (s + n) < P → P ≤ psi lb lw (s + n + 1) →
    enumPos lb lw (psi lb lw s) (P - psi lb lw s) =
      (List.range' s (n + 1)).map (psi lb lw) := by
  intro n
  induction n with
  | zero =>
    intro s P h1 h2
    simp only [Nat.add_zero] at h1 h2
    obtain ⟨m, hm⟩ : ∃ m, P - psi lb lw s = m + 1 := ⟨P - psi lb lw s - 1, by omega⟩
    have hgap : ∀ q, psi lb lw s + 1 ≤ q → q < psi lb lw s + 1 + m → lb ≤ q % lw := by
      intro q hq1 hq2
      refine between_not_data lb lw s q hlb hlw (by omega) (by omega)
    rw [hm, enumPos_succ_data lb lw _ _ (psi_data lb lw s hlb hlw),
      enumPos_nil lb lw m (psi lb lw s + 1) hgap]
    simp [List.range'_succ]
  | succ n ih =>
    intro s P h1 h2
    have h1' : psi lb lw (s + n + 1) < P := h1
    have h2' : P ≤ psi lb lw (s + n + 1 + 1) := h2
    have hm1 : psi lb lw s ≤ psi lb lw (s + n + 1) := psi_le_psi lb lw hlw _ _ (by omega)
    obtain ⟨m, hm⟩ : ∃ m, P - psi lb lw s = m + 1 := ⟨P - psi lb lw s - 1, by omega⟩
    rw [hm, enumPos_succ_data lb lw _ _ (psi_data lb lw s hlb hlw)]
    have hsucc : psi lb lw s < psi lb lw (s + 1) := psi_lt_succ lb lw s hlw
    have hs1P : psi lb lw (s + 1) ≤ P :=
      le_trans (psi_le_psi lb lw hlw _ _ (by omega)) (le_of_lt h1')
    have hgap : ∀ q, psi lb lw s + 1 ≤ q →
        q < psi lb lw s + 1 + (psi lb lw (s + 1) - psi lb lw s - 1) → lb ≤ q % lw := by
      intro q hq1 hq2
      refine between_not_data lb lw s q hlb hlw (by omega) (by omega)
    rw [enumPos_skip_to lb lw (psi lb lw (s + 1) - psi lb lw s - 1) (psi lb lw s + 1) m
      (by omega) hgap]
    have harg1 : psi lb lw s + 1 + (psi lb lw (s + 1) - psi lb lw s - 1) =
        psi lb lw (s + 1) := by omega
    have harg2 : m - (psi lb lw (s + 1) - psi lb lw s - 1) = P - psi lb lw (s + 1) := by
      omega
    rw [harg1, harg2]
    have e1 : s + 1 + n = s + n + 1 := by omega
    have e2 : s + 1 + n + 1 = s + n + 1 + 1 := by omega
    have hih := ih (s + 1) P (e1.symm ▸ h1') (e2.symm ▸ h2')
    rw [hih, show List.range' s (n + 1 + 1) = s :: List.range' (s + 1) (n + 1) from
      List.range'_succ s (n + 1) 1, List.map_cons]

/-! The strip loop. -/

lemma nextLinePos_mod (lw p : Nat) (hlw : 0 < lw) :
    nextLinePos lw (p % lw) = (p + 1) % lw := by
  unfold nextLinePos
  have hmm : (p + 1) % lw = (p % lw + 1) % lw := by rw [Nat.mod_add_mod]
  by_cases h : p % lw + 1 = lw
  · rw [if_pos h, hmm, h, Nat.mod_self]
  · have h2 : p % lw < lw := Nat.mod_lt p hlw
    have h3 : (p % lw + 1) % lw = p % lw + 1 := Nat.mod_eq_of_lt (by omega)
    rw [if_neg h, hmm, h3]

/-- Stripping a span of layout bytes keeps exactly the bytes at the
enumerated data positions. -/
lemma stripPure_map (lb lw : Nat) (hlw : 0 < lw) (f : Nat → Nat) :
    ∀ c p, stripPure lb lw ((List.range' p c).map f) (p % lw) =
      (enumPos lb lw p c).map f := by
  intro c
  induction c with
  | zero => intro p; rfl
  | succ c ih =>
    intro p
    rw [List.range'_succ, List.map_cons]
    unfold stripPure
    rw [nextLinePos_mod lw p hlw, ih (p + 1)]
    by_cases h : p % lw < lb
    · rw [if_pos h, enumPos_succ_data lb lw p c h, List.map_cons]
      rfl
    · rw [if_neg h, enumPos_succ_skip lb lw p c h]
      rfl

/-! The copy loop against the reference strip. -/

lemma take_succ_set (b : Nat) : ∀ (l : List Nat) (i : Nat), i < l.length →
    (l.set i b).take (i + 1) = l.take i ++ [b] := by
  intro l
  induction l with
  | nil => intro i h; simp at h
  | cons a l ih =>
    intro i h
    cases i with
    | zero => rfl
    | succ i =>
      have h2 : i < l.length := by simpa using h
      show a :: (l.set i b).take (i + 1) = a :: (l.take i ++ [b])
      rw [ih i h2]

lemma copyLoop_strip (lb lw : Nat) :
    ∀ (buffer : List Nat) (lp pos : Nat) (resBuf : List Nat),
    pos + (stripPure lb lw buffer lp).length ≤ resBuf.length →
    copyLoop lb lw buffer lp pos resBuf =
      some (resBuf.take pos ++ stripPure lb lw buffer lp ++
        resBuf.drop (pos + (stripPure lb lw buffer lp).length)) := by
  intro buffer
  induction buffer with
  | nil =>
    intro lp pos resBuf h
    show some resBuf = _
    rw [show stripPure lb lw [] lp = [] from rfl, List.append_nil, List.length_nil,
      Nat.add_zero, List.take_append_drop]
  | cons b rest ih =>
    intro lp pos resBuf h
    have hstrip0 : stripPure lb lw (b :: rest) lp =
        (if lp < lb then [b] else []) ++ stripPure lb lw rest (nextLinePos lw lp) := rfl
    by_cases hd : lp < lb
    · have hstrip : stripPure lb lw (b :: rest) lp =
          b :: stripPure lb lw rest (nextLinePos lw lp) := by
        rw [hstrip0, if_pos hd, List.singleton_append]
      rw [hstrip] at h ⊢
      simp only [List.length_cons] at h
      have hpos : pos < resBuf.length := by omega
      unfold copyLoop
      rw [if_pos hd, if_pos hpos]
      rw [ih (nextLinePos lw lp) (pos + 1) (resBuf.set pos b)
        (by rw [List.length_set]; omega)]
      congr 1
      rw [take_succ_set b resBuf pos hpos,
        List.drop_set_of_lt b resBuf (show pos < pos + 1 +
          (stripPure lb lw rest (nextLinePos lw lp)).length by omega)]
      have hidx : pos + 1 + (stripPure lb lw rest (nextLinePos lw lp)).length =
          pos + ((stripPure lb lw rest (nextLinePos lw lp)).length + 1) := by omega
      rw [hidx]
      simp [List.append_assoc]
    · have hstrip : stripPure lb lw (b :: rest) lp =
          stripPure lb lw rest (nextLinePos lw lp) := by
        rw [hstrip0, if_neg hd, List.nil_append]
      rw [hstrip] at h ⊢
      unfold copyLoop
      rw [if_neg hd]
      exact ih (nextLinePos lw lp) pos resBuf h

/-- When the strip has exactly the size of the result buffer, the copy
loop fills it completely and returns it. -/
lemma copyLoop_exact (lb lw : Nat) (buffer : List Nat) (lp : Nat) (resBuf : List Nat)
    (h : (stripPure lb lw buffer lp).length = resBuf.length) :
    copyLoop lb lw buffer lp 0 resBuf = some (stripPure lb lw buffer lp) := by
  rw [copyLoop_strip lb lw buffer lp 0 resBuf (by omega)]
  rw [List.take_zero, List.nil_append, Nat.zero_add, h, List.drop_length, List.append_nil]

/-! The data slice read from a well-laid-out source. -/

lemma goodData_slice (ent : indexEntry) (seq : Nat → Nat) (data : List Nat)
    (hgd : goodData ent seq data) (p0 c : Nat) (hc : p0 + c ≤ physLen ent) :
    (data.drop (ent.offset + p0)).take c =
      (List.range' p0 c).map (layoutByte ent seq) := by
  obtain ⟨hlen, hbytes⟩ := hgd
  apply List.ext_getElem
  · rw [List.length_take, List.length_drop, List.length_map, List.length_range']
    omega
  · intro i h1 h2
    have hi : i < c := by simpa using h2
    have hp : p0 + i < physLen ent := by omega
    have hval := hbytes (p0 + i) hp
    rw [List.getD_eq_getElem data 0 (by omega)] at hval
    rw [List.getElem_take, List.getElem_drop, List.getElem_map, List.getElem_range']
    have e1 : ent.offset + p0 + i = ent.offset + (p0 + i) := by omega
    simp only [e1, Nat.one_mul]
    rw [hval]

/-! Correctness of the read-through cache on in-bounds requests. -/

lemma read_correct (data : List Nat) (st : FastaState) (o m : Nat)
    (hinv : CacheInv data st) (hfit : o + m ≤ data.length) :
    ∃ st2, read data st (o : Int) (m : Int) = .ok ((data.drop o).take m) st2 ∧
      CacheInv data st2 := by
  obtain ⟨hbo, hblen, hbuf⟩ := hinv
  obtain ⟨bo, hbo2⟩ : ∃ bo : Nat, st.bufOff = (bo : Int) :=
    ⟨st.bufOff.toNat, (Int.toNat_of_nonneg hbo).symm⟩
  have hbonat : st.bufOff.toNat = bo := by rw [hbo2]; rfl
  rw [hbonat] at hblen hbuf
  simp only [read, hbo2]
  by_cases hwin : (o : Int) < (bo : Int) ∨ (o : Int) + (m : Int) > (bo : Int) + (st.buf.length : Int)
  · rw [if_pos hwin, if_neg (by omega)]
    obtain ⟨B, hB, hmB⟩ : ∃ B : Nat,
        (if (8192 : Int) < (m : Int) then (m : Int) else 8192) = (B : Nat) ∧ m ≤ B := by
      rcases le_or_lt (m : Int) 8192 with h8 | h8
      · exact ⟨8192, by rw [if_neg (by omega)]; norm_num, by omega⟩
      · exact ⟨m, by rw [if_pos (by omega)], le_refl m⟩
    rw [hB]
    have hmin : ((B : Int) ⊓ (((data.length : Int) - (o : Int)) ⊔ 0)) =
        ((min B (data.length - o) : Nat) : Int) := by omega
    rw [hmin]
    have hbr : m ≤ min B (data.length - o) := by omega
    rw [if_neg (by omega)]
    have htn : ((min B (data.length - o) : Nat) : Int).toNat = min B (data.length - o) := by
      omega
    have hon : ((o : Int)).toNat = o := by omega
    rw [htn, hon]
    have hlen2 : ((data.drop o).take (min B (data.length - o))).length =
        min B (data.length - o) := by
      rw [List.length_take, List.length_drop]
      omega
    rw [if_neg (by rw [hlen2]; omega), if_neg (by omega)]
    have hmn : ((m : Int)).toNat = m := by omega
    rw [hmn]
    have hslice : ((data.drop o).take (min B (data.length - o))).take m =
        (data.drop o).take m := by
      rw [List.take_take]
      congr 1
      omega
    rw [hslice]
    refine ⟨_, rfl, show (0 : Int) ≤ ((o : Nat) : Int) by omega, ?_, ?_⟩
    · show ((o : Int)).toNat + ((data.drop o).take (min B (data.length - o))).length ≤ _
      rw [hon, hlen2]
      omega
    · show (data.drop o).take (min B (data.length - o)) =
        (data.drop ((o : Int)).toNat).take ((data.drop o).take (min B (data.length - o))).length
      rw [hon, hlen2]
  · rw [if_neg hwin, if_neg (by omega)]
    have hd : ((o : Int) - (bo : Int)).toNat = o - bo := by omega
    have hmn : ((m : Int)).toNat = m := by omega
    rw [hd, hmn, hbuf]
    have hob : bo ≤ o := by omega
    have hfit2 : o - bo + m ≤ st.buf.length := by omega
    rw [List.drop_take, List.drop_drop]
    have e1 : bo + (o - bo) = o := by omega
    rw [e1, List.take_take]
    have e2 : m ⊓ (st.buf.length - (o - bo)) = m := by omega
    rw [e2]
    exact ⟨st, rfl, by rw [hbo2]; omega, by rw [hbonat]; omega, by rw [hbonat]; exact hbuf⟩

/-! Span arithmetic of `Get`. -/

/-- Value of `newlinesToRead` when the range extends past the first
physical line. -/
lemma newlines_caseA (ent : indexEntry) (s e : Nat) (hlb : 0 < ent.lineBase)
    (hse : s < e) (hU : e < U64)
    (hA : (s / ent.lineBase + 1) * ent.lineBase < e) :
    newlinesToRead ent s e = e / ent.lineBase - s / ent.lineBase := by
  have hdm : ent.lineBase * (s / ent.lineBase) + s % ent.lineBase = s :=
    Nat.div_add_mod s ent.lineBase
  have hrm : s % ent.lineBase < ent.lineBase := Nat.mod_lt s hlb
  have hmul : (s / ent.lineBase + 1) * ent.lineBase =
      ent.lineBase * (s / ent.lineBase) + ent.lineBase := by ring
  have hc2 : ent.lineBase * (s / ent.lineBase + 1) =
      ent.lineBase * (s / ent.lineBase) + ent.lineBase := by ring
  unfold newlinesToRead firstLineBases
  rw [if_pos (by omega)]
  have harg : e - s - (ent.lineBase - s % ent.lineBase) =
      e - ent.lineBase * (s / ent.lineBase + 1) := by omega
  rw [harg, Nat.sub_mul_div e ent.lineBase (s / ent.lineBase + 1) (by omega)]
  have hqe : s / ent.lineBase + 1 ≤ e / ent.lineBase := by
    rw [Nat.le_div_iff_mul_le hlb]
    omega
  have hval : 1 + (e / ent.lineBase - (s / ent.lineBase + 1)) =
      e / ent.lineBase - s / ent.lineBase := by omega
  have hlt : e / ent.lineBase - s / ent.lineBase < U64 :=
    lt_of_le_of_lt (le_trans (Nat.sub_le _ _) (Nat.div_le_self e ent.lineBase)) hU
  rw [hval, Nat.mod_eq_of_lt hlt]

/-- Value of `newlinesToRead` when the range fits on the first physical
line. -/
lemma newlines_caseB (ent : indexEntry) (s e : Nat) (hlb : 0 < ent.lineBase)
    (hB : e ≤ (s / ent.lineBase + 1) * ent.lineBase) :
    newlinesToRead ent s e = 0 := by
  have hdm : ent.lineBase * (s / ent.lineBase) + s % ent.lineBase = s :=
    Nat.div_add_mod s ent.lineBase
  have hrm : s % ent.lineBase < ent.lineBase := Nat.mod_lt s hlb
  have hmul : (s / ent.lineBase + 1) * ent.lineBase =
      ent.lineBase * (s / ent.lineBase) + ent.lineBase := by ring
  unfold newlinesToRead firstLineBases
  rw [if_neg (by omega)]

/-- The computed physical span ends strictly after the physical
position of base `e-1` and at or before the physical position of the
(would-be) base `e`. -/
lemma span_bounds (ent : indexEntry) (s e : Nat) (hlb : 0 < ent.lineBase)
    (hlw : ent.lineBase ≤ ent.lineWidth) (hse : s < e) (hU : e < U64) :
    psi ent.lineBase ent.lineWidth (e - 1) <
      psi ent.lineBase ent.lineWidth s +
        (e - s + newlinesToRead ent s e * (ent.lineWidth - ent.lineBase)) ∧
    psi ent.lineBase ent.lineWidth s +
        (e - s + newlinesToRead ent s e * (ent.lineWidth - ent.lineBase)) ≤
      psi ent.lineBase ent.lineWidth e := by
  have hdm : ent.lineBase * (s / ent.lineBase) + s % ent.lineBase = s :=
    Nat.div_add_mod s ent.lineBase
  have hrm : s % ent.lineBase < ent.lineBase := Nat.mod_lt s hlb
  have hmul : (s / ent.lineBase + 1) * ent.lineBase =
      ent.lineBase * (s / ent.lineBase) + ent.lineBase := by ring
  have hmul2 : s / ent.lineBase * ent.lineBase = ent.lineBase * (s / ent.lineBase) := by
    ring
  have hq : s / ent.lineBase ≤ e / ent.lineBase := Nat.div_le_div_right (le_of_lt hse)
  by_cases hA : (s / ent.lineBase + 1) * ent.lineBase < e
  · rw [newlines_caseA ent s e hlb hse hU hA]
    have heq : psi ent.lineBase ent.lineWidth s +
        (e - s + (e / ent.lineBase - s / ent.lineBase) *
          (ent.lineWidth - ent.lineBase)) = psi ent.lineBase ent.lineWidth e := by
      rw [psi_eq ent.lineBase ent.lineWidth s hlw, psi_eq ent.lineBase ent.lineWidth e hlw]
      have h2 : (ent.lineWidth - ent.lineBase) * (e / ent.lineBase) =
          (ent.lineWidth - ent.lineBase) * (s / ent.lineBase) +
            (ent.lineWidth - ent.lineBase) * (e / ent.lineBase - s / ent.lineBase) := by
        rw [← Nat.mul_add]
        congr 1
        omega
      have h3 : (e / ent.lineBase - s / ent.lineBase) * (ent.lineWidth - ent.lineBase) =
          (ent.lineWidth - ent.lineBase) * (e / ent.lineBase - s / ent.lineBase) :=
        Nat.mul_comm _ _
      omega
    rw [heq]
    exact ⟨psi_lt_psi ent.lineBase ent.lineWidth hlw (e - 1) e (by omega), le_refl _⟩
  · rw [newlines_caseB ent s e hlb (by omega)]
    simp only [Nat.zero_mul, Nat.add_zero]
    have hd : (e - 1) / ent.lineBase = s / ent.lineBase := by
      refine Nat.div_eq_of_lt_le (by omega) (by omega)
    rw [psi_eq ent.lineBase ent.lineWidth s hlw, psi_eq ent.lineBase ent.lineWidth e hlw,
      psi_eq ent.lineBase ent.lineWidth (e - 1) hlw, hd]
    have h4 : (ent.lineWidth - ent.lineBase) * (s / ent.lineBase) ≤
        (ent.lineWidth - ent.lineBase) * (e / ent.lineBase) :=
      Nat.mul_le_mul_left _ hq
    omega

/-! Bounds against the physical extent, and removal of the uint64 wraps
in the sane region. -/

lemma physLen_ge_length (ent : indexEntry) : ent.length ≤ physLen ent :=
  Nat.le_add_right _ _

lemma nLines_pos (ent : indexEntry) (hlb : 0 < ent.lineBase) (hL : 0 < ent.length) :
    0 < nLines ent := by
  unfold nLines
  have h1 : 1 ≤ (ent.length + ent.lineBase - 1) / ent.lineBase := by
    rw [Nat.le_div_iff_mul_le hlb]
    omega
  omega

lemma div_le_nLines (ent : indexEntry) (hlb : 0 < ent.lineBase) (e : Nat)
    (he : e ≤ ent.length) : e / ent.lineBase ≤ nLines ent := by
  unfold nLines
  exact Nat.div_le_div_right (by omega)

lemma psi_le_physLen (ent : indexEntry) (hlb : 0 < ent.lineBase)
    (hlw : ent.lineBase ≤ ent.lineWidth) (e : Nat) (he : e ≤ ent.length) :
    psi ent.lineBase ent.lineWidth e ≤ physLen ent := by
  rw [psi_eq _ _ _ hlw]
  unfold physLen
  have h1 : e / ent.lineBase ≤ nLines ent := div_le_nLines ent hlb e he
  have h2 : (ent.lineWidth - ent.lineBase) * (e / ent.lineBase) ≤
      (ent.lineWidth - ent.lineBase) * nLines ent := Nat.mul_le_mul_left _ h1
  have h3 : nLines ent * (ent.lineWidth - ent.lineBase) =
      (ent.lineWidth - ent.lineBase) * nLines ent := Nat.mul_comm _ _
  omega

lemma cpn_le_physLen (ent : indexEntry) (hlb : 0 < ent.lineBase) (hL : 0 < ent.length) :
    ent.lineWidth - ent.lineBase ≤ physLen ent := by
  unfold physLen
  have h1 : 0 < nLines ent := nLines_pos ent hlb hL
  have h2 : 1 * (ent.lineWidth - ent.lineBase) ≤
      nLines ent * (ent.lineWidth - ent.lineBase) := Nat.mul_le_mul_right _ h1
  omega

lemma sane_cpn (ent : indexEntry) (hlw : ent.lineBase ≤ ent.lineWidth)
    (hcw : ent.lineWidth - ent.lineBase < U64) :
    charsPerNewline ent = ent.lineWidth - ent.lineBase := by
  unfold charsPerNewline
  have h1 : U64 + ent.lineWidth - ent.lineBase = U64 + (ent.lineWidth - ent.lineBase) := by
    omega
  rw [h1, Nat.add_mod_left, Nat.mod_eq_of_lt hcw]

lemma sane_physOffset (ent : indexEntry) (s e : Nat) (hlb : 0 < ent.lineBase)
    (hlw : ent.lineBase ≤ ent.lineWidth) (hse : s < e) (he : e ≤ ent.length)
    (hbound : ent.offset + physLen ent < 2 ^ 63) :
    physOffset ent s = ent.offset + psi ent.lineBase ent.lineWidth s := by
  have hU : (2 : Nat) ^ 63 < U64 := by norm_num [U64]
  have hL : 0 < ent.length := by omega
  have hcw : ent.lineWidth - ent.lineBase < U64 :=
    lt_of_le_of_lt (cpn_le_physLen ent hlb hL) (by omega)
  have hpsis : psi ent.lineBase ent.lineWidth s ≤ physLen ent :=
    psi_le_physLen ent hlb hlw s (by omega)
  have hpsieq : psi ent.lineBase ent.lineWidth s =
      s + (ent.lineWidth - ent.lineBase) * (s / ent.lineBase) := psi_eq _ _ _ hlw
  unfold physOffset
  rw [sane_cpn ent hlw hcw,
    Nat.mod_eq_of_lt (show ent.offset + s < U64 by omega),
    Nat.mod_eq_of_lt
      (show (ent.lineWidth - ent.lineBase) * (s / ent.lineBase) < U64 by omega),
    Nat.mod_eq_of_lt (by omega)]
  omega

lemma sane_capacity (ent : indexEntry) (s e : Nat) (hlb : 0 < ent.lineBase)
    (hlw : ent.lineBase ≤ ent.lineWidth) (hse : s < e) (he : e ≤ ent.length)
    (hbound : ent.offset + physLen ent < 2 ^ 63) :
    readCapacity ent s e =
      e - s + newlinesToRead ent s e * (ent.lineWidth - ent.lineBase) := by
  have hU : (2 : Nat) ^ 63 < U64 := by norm_num [U64]
  have hL : 0 < ent.length := by omega
  have hUe : e < U64 := by
    have := physLen_ge_length ent
    omega
  have hcw : ent.lineWidth - ent.lineBase < U64 :=
    lt_of_le_of_lt (cpn_le_physLen ent hlb hL) (by omega)
  have hspan := (span_bounds ent s e hlb hlw hse hUe).2
  have hpsie : psi ent.lineBase ent.lineWidth e ≤ physLen ent :=
    psi_le_physLen ent hlb hlw e he
  unfold readCapacity
  rw [sane_cpn ent hlw hcw,
    Nat.mod_eq_of_lt
      (show newlinesToRead ent s e * (ent.lineWidth - ent.lineBase) < U64 by omega),
    Nat.mod_eq_of_lt (by omega)]

lemma sane_initLinePos (ent : indexEntry) (s e : Nat) (hlb : 0 < ent.lineBase)
    (hlw : ent.lineBase ≤ ent.lineWidth) (hse : s < e) (he : e ≤ ent.length)
    (hbound : ent.offset + physLen ent < 2 ^ 63) :
    initLinePos ent s = psi ent.lineBase ent.lineWidth s % ent.lineWidth := by
  have hU : (2 : Nat) ^ 63 < U64 := by norm_num [U64]
  have hpsis : psi ent.lineBase ent.lineWidth s ≤ physLen ent :=
    psi_le_physLen ent hlb hlw s (by omega)
  unfold initLinePos
  rw [sane_physOffset ent s e hlb hlw hse he hbound]
  have h1 : U64 + (ent.offset + psi ent.lineBase ent.lineWidth s) - ent.offset =
      U64 + psi ent.lineBase ent.lineWidth s := by omega
  have hmod : psi ent.lineBase ent.lineWidth s % U64 = psi ent.lineBase ent.lineWidth s :=
    Nat.mod_eq_of_lt (by omega)
  rw [h1, Nat.add_mod_left, hmod]

/-- The data positions of the computed span are exactly the physical
positions of the requested logical range. -/
lemma enumPos_span_entry (ent : indexEntry) (s e : Nat) (hlb : 0 < ent.lineBase)
    (hlw : ent.lineBase ≤ ent.lineWidth) (hse : s < e) (hUe : e < U64) :
    enumPos ent.lineBase ent.lineWidth (psi ent.lineBase ent.lineWidth s)
      (e - s + newlinesToRead ent s e * (ent.lineWidth - ent.lineBase)) =
      (List.range' s (e - s)).map (psi ent.lineBase ent.lineWidth) := by
  have hspan := span_bounds ent s e hlb hlw hse hUe
  set span := e - s + newlinesToRead ent s e * (ent.lineWidth - ent.lineBase)
    with hspandef
  have h1 : psi ent.lineBase ent.lineWidth (s + (e - s - 1)) <
      psi ent.lineBase ent.lineWidth s + span := by
    have e1 : s + (e - s - 1) = e - 1 := by omega
    rw [e1]
    exact hspan.1
  have h2 : psi ent.lineBase ent.lineWidth s + span ≤
      psi ent.lineBase ent.lineWidth (s + (e - s - 1) + 1) := by
    have e1 : s + (e - s - 1) + 1 = e := by omega
    rw [e1]
    exact hspan.2
  have h3 := enumPos_span ent.lineBase ent.lineWidth hlb hlw (e - s - 1) s
    (psi ent.lineBase ent.lineWidth s + span) h1 h2
  have e2 : psi ent.lineBase ent.lineWidth s + span -
      psi ent.lineBase ent.lineWidth s = span := by omega
  have e3 : e - s - 1 + 1 = e - s := by omega
  rw [e2, e3] at h3
  exact h3

/-- Correct execution of `Get` on a valid request against a data source
matching the index entry: the result is exactly the requested logical
sub-range of the sequence, and the cache invariant is preserved. -/
lemma Get_correct (f : indexedFasta) (data : List Nat) (st : FastaState)
    (name : String) (ent : indexEntry) (seq : Nat → Nat) (s e : Nat)
    (hfound : f.seqs name = some ent)
    (hlb : 0 < ent.lineBase) (hlw : ent.lineBase ≤ ent.lineWidth)
    (hse : s < e) (he : e ≤ ent.length)
    (hdlen : data.length < 2 ^ 63)
    (hgd : goodData ent seq data)
    (hinv : CacheInv data st) :
    ∃ st2, Get f data st name s e =
      (.ok ((List.range' s (e - s)).map seq), st2) ∧ CacheInv data st2 := by
  have hU : (2 : Nat) ^ 63 < U64 := by norm_num [U64]
  obtain ⟨hfit0, hbytes⟩ := hgd
  have hbound : ent.offset + physLen ent < 2 ^ 63 := by omega
  have hL : 0 < ent.length := by omega
  have hUe : e < U64 := by
    have := physLen_ge_length ent
    omega
  have hpo := sane_physOffset ent s e hlb hlw hse he hbound
  have hcap := sane_capacity ent s e hlb hlw hse he hbound
  have hspan := span_bounds ent s e hlb hlw hse hUe
  have hpsie : psi ent.lineBase ent.lineWidth e ≤ physLen ent :=
    psi_le_physLen ent hlb hlw e he
  have hpsis : psi ent.lineBase ent.lineWidth s ≤ physLen ent :=
    psi_le_physLen ent hlb hlw s (by omega)
  have hil := sane_initLinePos ent s e hlb hlw hse he hbound
  set span := e - s + newlinesToRead ent s e * (ent.lineWidth - ent.lineBase)
    with hspandef
  unfold Get
  rw [if_neg (show ¬ e ≤ s by omega)]
  simp only [hfound]
  rw [if_neg (show ¬ ent.length < e by omega),
    if_neg (show ¬ ent.lineBase = 0 by omega)]
  have ht1 : toInt64 (physOffset ent s) =
      ((ent.offset + psi ent.lineBase ent.lineWidth s : Nat) : Int) := by
    unfold toInt64
    rw [hpo, if_pos (by omega)]
  have ht2 : toInt64 (readCapacity ent s e) = ((span : Nat) : Int) := by
    unfold toInt64
    rw [hcap, if_pos (by omega)]
  rw [ht1, ht2]
  obtain ⟨st2, hread, hinv2⟩ := read_correct data st
    (ent.offset + psi ent.lineBase ent.lineWidth s) span hinv (by omega)
  simp only [hread]
  rw [if_neg (show ¬ ent.lineWidth = 0 by omega)]
  rw [hil]
  have hfit2 : psi ent.lineBase ent.lineWidth s + span ≤ physLen ent :=
    le_trans hspan.2 hpsie
  have hslice := goodData_slice ent seq data ⟨hfit0, hbytes⟩
    (psi ent.lineBase ent.lineWidth s) span hfit2
  rw [hslice]
  have hlw0 : 0 < ent.lineWidth := by omega
  have henum : enumPos ent.lineBase ent.lineWidth (psi ent.lineBase ent.lineWidth s) span =
      (List.range' s (e - s)).map (psi ent.lineBase ent.lineWidth) :=
    enumPos_span_entry ent s e hlb hlw hse hUe
  have hstripmap := stripPure_map ent.lineBase ent.lineWidth hlw0 (layoutByte ent seq)
    span (psi ent.lineBase ent.lineWidth s)
  have hlayout : ∀ j, j < ent.length →
      layoutByte ent seq (psi ent.lineBase ent.lineWidth j) = seq j := by
    intro j hj
    unfold layoutByte
    rw [if_pos ⟨psi_data _ _ j hlb hlw, (phi_psi ent.lineBase ent.lineWidth j hlb hlw).symm ▸ hj⟩,
      phi_psi _ _ j hlb hlw]
  have hfinal : stripPure ent.lineBase ent.lineWidth
      ((List.range' (psi ent.lineBase ent.lineWidth s) span).map (layoutByte ent seq))
      (psi ent.lineBase ent.lineWidth s % ent.lineWidth) =
      (List.range' s (e - s)).map seq := by
    rw [hstripmap, henum, List.map_map]
    refine List.map_congr_left ?_
    intro j hj
    rw [List.mem_range'_1] at hj
    exact hlayout j (by omega)
  have hreslen : (resizeBuf st2.resultBuf (e - s)).length = e - s := by
    unfold resizeBuf
    split
    · exact List.length_replicate _ _
    · rw [List.length_take]
      omega
  have hexact := copyLoop_exact ent.lineBase ent.lineWidth
    ((List.range' (psi ent.lineBase ent.lineWidth s) span).map (layoutByte ent seq))
    (psi ent.lineBase ent.lineWidth s % ent.lineWidth)
    (resizeBuf st2.resultBuf (e - s))
    (by rw [hfinal, hreslen]; simp)
  simp only [hexact]
  rw [hfinal]
  exact ⟨_, rfl, hinv2⟩

/-- Processing stops at the first line the pattern does not match, with
the `nil` entry list the Go code returns. -/
lemma parse_first_bad : ∀ (pre : List (List Char)) (bad : List Char) (rest : List (List Char)),
    (∀ l ∈ pre, lineParses l = true) → findMatch bad = none →
    parseIndex (pre ++ bad :: rest) = .err [] bad := by
  intro pre
  induction pre with
  | nil =>
    intro bad rest _ hbad
    simp [parseIndex, hbad]
  | cons a pre ih =>
    intro bad rest hpre hbad
    have ha : lineParses a = true := hpre a (by simp)
    unfold lineParses at ha
    cases hfa : findMatch a with
    | none => simp only [hfa] at ha; exact Bool.noConfusion ha
    | some g =>
      simp only [hfa] at ha
      have hrec := ih bad rest (fun l hl => hpre l (by simp [hl])) hbad
      rw [List.cons_append]
      unfold parseIndex
      simp only [hfa, ha, if_true, hrec]

/-- An error outcome of `parseIndex` always carries the empty entry
list (the Go code returns `nil, fmt.Errorf(...)`). -/
lemma parse_err_entries_nil : ∀ (lines : List (List Char)) (es : List indexEntry) (l : List Char),
    parseIndex lines = .err es l → es = [] := by
  intro lines
  induction lines with
  | nil => intro es l h; simp [parseIndex] at h
  | cons a rest ih =>
    intro es l h
    unfold parseIndex at h
    cases hfa : findMatch a with
    | none =>
      simp only [hfa] at h
      cases h
      rfl
    | some g =>
      simp only [hfa] at h
      by_cases hfit : groupsFit g = true
      · rw [if_pos hfit] at h
        cases hrest : parseIndex rest with
        | ok es2 => rw [hrest] at h; cases h
        | err es2 l2 =>
          rw [hrest] at h
          cases h
          exact ih _ _ hrest
        | panicked => rw [hrest] at h; cases h
      · rw [if_neg hfit] at h
        cases h

/-- The catalog lookup equals the last index entry carrying the name. -/
lemma buildSeqs_append (es : List indexEntry) (a : indexEntry) (name : String) :
    buildSeqs (es ++ [a]) name = if name = a.name then some a else buildSeqs es name := by
  unfold buildSeqs
  rw [List.foldl_append]
  rfl

lemma buildSeqs_eq (es : List indexEntry) (name : String) :
    buildSeqs es name = (es.filter (fun ent => decide (ent.name = name))).getLast? := by
  induction es using List.reverseRecOn with
  | nil => rfl
  | append_singleton es a ih =>
    rw [buildSeqs_append, List.filter_append]
    by_cases h : a.name = name
    · simp [h]
    · have : name = a.name ↔ False := by constructor <;> intro hh <;> simp_all [eq_comm]
      simp [h, this, ih]

/-- `Get` depends on the engine only through the lookup of the
requested name. -/
lemma Get_congr (f g : indexedFasta) (data : List Nat) (st : FastaState)
    (name : String) (s e : Nat) (h : f.seqs name = g.seqs name) :
    Get f data st name s e = Get g data st name s e := by
  unfold Get
  rw [h]

/-- C4, counterexample.  The claim says every malformed line — too many
tab-separated fields included, and numeric fields that do not parse as
64-bit integers included — makes construction fail with a FormatError
and never panic.  The regex search is unanchored, so the six-field line
`seq1\t10\t0\t4\t5\t9` is accepted without any error, and the all-digit
field `99999999999999999999999` matches `\d+` but overflows
`strconv.ParseUint`, so `must.Nil` panics instead of returning a
FormatError. -/
theorem C4_counterexample :
    isFormatError (parseIndex ["seq1\t10\t0\t4\t5\t9".data]) = false ∧
    parseIndex ["seq1\t10\t0\t4\t5\t9".data] =
      ParseOutcome.ok [⟨"seq1", 10, 0, 4, 5⟩] ∧
    parseIndex ["seq1\t99999999999999999999999\t0\t4\t5".data] = ParseOutcome.panicked := by
  refine ⟨by decide, by decide, by decide⟩

/-- C4, amended.  A line in which the tab-separated pattern
`(\S+)\t(\d+)\t(\d+)\t(\d+)\t(\d+)` occurs nowhere (too few fields, or a
non-numeric field) makes `parseIndex` fail with the FormatError naming
the first such line; a line with extra fields is accepted through the
first occurrence of the pattern, and an all-digit field `≥ 2^64` panics
rather than producing a FormatError. -/
theorem C4_amended (pre : List (List Char)) (bad : List Char) (rest : List (List Char))
    (hpre : ∀ l ∈ pre, lineParses l = true) (hbad : findMatch bad = none) :
    parseIndex (pre ++ bad :: rest) = ParseOutcome.err [] bad :=
  parse_first_bad pre bad rest hpre hbad

theorem C4_amended_witness :
    parseIndex (["seq1\t10\t0\t4\t5".data] ++ "no tabs here".data :: []) =
      ParseOutcome.err [] "no tabs here".data :=
  C4_amended ["seq1\t10\t0\t4\t5".data] "no tabs here".data []
    (by decide) (by decide)

/-- C5, counterexample.  The claim says entries parsed before the
failing line are returned together with the error.  On the input whose
first line parses to an entry and whose second line is malformed, the
code returns `nil` entries (`return nil, fmt.Errorf(...)`), not the
one-entry list it had built. -/
theorem C5_counterexample :
    parseIndex ["seq1\t10\t0\t4\t5".data, "oops".data] =
      ParseOutcome.err [] "oops".data ∧
    parseIndex ["seq1\t10\t0\t4\t5".data] =
      ParseOutcome.ok [⟨"seq1", 10, 0, 4, 5⟩] := by
  refine ⟨by decide, by decide⟩

/-- C5, amended.  When index parsing fails on a malformed line, the
caller receives no entries at all together with the error: the entry
list returned alongside a FormatError is always `nil`, even when
earlier lines parsed successfully. -/
theorem C5_amended (pre : List (List Char)) (bad : List Char) (rest : List (List Char))
    (hpre : ∀ l ∈ pre, lineParses l = true) (hbad : findMatch bad = none) :
    entriesOf (parseIndex (pre ++ bad :: rest)) = [] := by
  rw [parse_first_bad pre bad rest hpre hbad]
  rfl

theorem C5_amended_witness :
    entriesOf (parseIndex (["seq1\t10\t0\t4\t5".data] ++ "oops".data :: [])) = [] :=
  C5_amended ["seq1\t10\t0\t4\t5".data] "oops".data [] (by decide) (by decide)

/-- C6, counterexample.  The claim says a name absent from the catalog
yields a NotFoundError for every pair (start, end), pairs with
start ≥ end included.  The code checks `end <= start` before the name
lookup: on an engine with an empty catalog, Get("x", 5, 3) returns the
InvalidRange error, not NotFound. -/
theorem C6_counterexample :
    (Get (newLazyIndexed []) [] initialState "x" 5 3).1 = GetResult.errInvalidRange ∧
    GetResult.errInvalidRange ≠ GetResult.errNotFound := by
  refine ⟨by decide, by decide⟩

/-- C6, amended.  `Get` validates the range before resolving the name:
for a name absent from the catalog it returns the InvalidRange error
when start ≥ end, and the NotFound error when start < end. -/
theorem C6_amended (f : indexedFasta) (data : List Nat) (st : FastaState)
    (name : String) (s e : Nat) (habs : f.seqs name = none) :
    (e ≤ s → (Get f data st name s e).1 = GetResult.errInvalidRange) ∧
    (s < e → (Get f data st name s e).1 = GetResult.errNotFound) := by
  constructor
  · intro h
    unfold Get
    rw [if_pos h]
  · intro h
    unfold Get
    rw [if_neg (by omega)]
    simp only [habs]

theorem C6_amended_witness :
    (Get (newLazyIndexed []) [] initialState "nope" 5 3).1 = GetResult.errInvalidRange ∧
    (Get (newLazyIndexed []) [] initialState "nope" 1 3).1 = GetResult.errNotFound :=
  ⟨(C6_amended (newLazyIndexed []) [] initialState "nope" 5 3 rfl).1 (by decide),
   (C6_amended (newLazyIndexed []) [] initialState "nope" 1 3 rfl).2 (by decide)⟩

/-- C7: duplicate names in the index resolve to the metadata of the
last such line.  The catalog lookup equals the last entry of the parsed
list carrying the name, `Len` reports that entry's length, and `Get`
behaves exactly as on an engine whose lookup returns only that last
entry. -/
theorem C7_last_write_wins (es : List indexEntry) (name : String) :
    (newLazyIndexed es).seqs name =
      (es.filter (fun ent => decide (ent.name = name))).getLast? ∧
    Len (newLazyIndexed es) name =
      ((es.filter (fun ent => decide (ent.name = name))).getLast?).map indexEntry.length ∧
    ∀ (data : List Nat) (st : FastaState) (s e : Nat),
      Get (newLazyIndexed es) data st name s e =
        Get ⟨fun _ => (es.filter (fun ent => decide (ent.name = name))).getLast?⟩
          data st name s e := by
  refine ⟨buildSeqs_eq es name, ?_, ?_⟩
  · unfold Len
    rw [show (newLazyIndexed es).seqs name = _ from buildSeqs_eq es name]
  · intro data st s e
    exact Get_congr _ _ _ _ _ _ _ (buildSeqs_eq es name)

/-- C9: the numeric pattern accepts a line-base of 0, and any valid Get
on such an entry reaches `start / ent.lineBase` and panics with a
division by zero rather than returning an error. -/
theorem C9_lineBase_zero_panics :
    parseIndex ["seq1\t10\t0\t0\t5".data] = ParseOutcome.ok [⟨"seq1", 10, 0, 0, 5⟩] ∧
    ∀ (f : indexedFasta) (data : List Nat) (st : FastaState) (name : String)
      (ent : indexEntry) (s e : Nat),
      f.seqs name = some ent → ent.lineBase = 0 → s < e → e ≤ ent.length →
      (Get f data st name s e).1 = GetResult.panicked := by
  constructor
  · decide
  · intro f data st name ent s e hf hlb hse he
    unfold Get
    rw [if_neg (by omega)]
    simp only [hf]
    rw [if_neg (by omega), if_pos hlb]

theorem C9_witness :
    (Get (newLazyIndexed [⟨"seq1", 10, 0, 0, 5⟩]) [] initialState "seq1" 0 10).1 =
      GetResult.panicked :=
  C9_lineBase_zero_panics.2 (newLazyIndexed [⟨"seq1", 10, 0, 0, 5⟩]) [] initialState
    "seq1" ⟨"seq1", 10, 0, 0, 5⟩ 0 10 (by decide) rfl (by decide) (by decide)

/-- C10, counterexample.  The claim says an entry with
line-width < line-base yields a wrapped `charsPerNewline` and thereby a
physical start offset near `2^64`.  Construction indeed accepts such an
entry and `charsPerNewline` wraps to `2^64 - 1`, but the wrapped product
cancels in the offset sum: for the accepted entry
`seq1\t10\t0\t5\t4` and start = 5 the physical start offset is 4 —
far below `2^63`, not near `2^64`. -/
theorem C10_counterexample :
    parseIndex ["seq1\t10\t0\t5\t4".data] = ParseOutcome.ok [⟨"seq1", 10, 0, 5, 4⟩] ∧
    charsPerNewline ⟨"seq1", 10, 0, 5, 4⟩ = 2 ^ 64 - 1 ∧
    physOffset ⟨"seq1", 10, 0, 5, 4⟩ 5 = 4 ∧
    physOffset ⟨"seq1", 10, 0, 5, 4⟩ 5 < 2 ^ 63 := by
  refine ⟨by decide, by decide, by decide, by decide⟩

/-- C10, amended.  Construction accepts an entry with
line-width < line-base (the invariant is never checked), and Get
computes `charsPerNewline` as the uint64 subtraction wrapping modulo
`2^64`; the product then wraps a second time, so the physical start
offset equals `offset + start − (lineBase − lineWidth)·(start /
lineBase)`, which never exceeds `offset + start` — the entry is accepted
with a small start offset rather than rejected or sent near `2^64`. -/
theorem C10_amended (ent : indexEntry) (s : Nat)
    (hwl : ent.lineWidth < ent.lineBase) (hlb : ent.lineBase < U64)
    (hos : ent.offset + s < 2 ^ 63) :
    charsPerNewline ent = U64 - (ent.lineBase - ent.lineWidth) ∧
    physOffset ent s =
      ent.offset + s - (ent.lineBase - ent.lineWidth) * (s / ent.lineBase) ∧
    physOffset ent s ≤ ent.offset + s := by
  have hU : (2 : Nat) ^ 63 < U64 := by unfold U64; norm_num
  set d := ent.lineBase - ent.lineWidth with hd
  have hd0 : 0 < d := by omega
  have hcpn : charsPerNewline ent = U64 - d := by
    unfold charsPerNewline
    have h1 : U64 + ent.lineWidth - ent.lineBase = U64 - d := by omega
    rw [h1, Nat.mod_eq_of_lt (by omega)]
  set q := s / ent.lineBase with hq
  have hdq : d * q ≤ s := by
    calc d * q ≤ ent.lineBase * q := Nat.mul_le_mul_right q (by omega)
    _ ≤ s := by rw [hq, Nat.mul_comm]; exact Nat.div_mul_le_self s ent.lineBase
  have hoff : physOffset ent s = ent.offset + s - d * q := by
    unfold physOffset
    rw [hcpn, ← hq]
    rcases Nat.eq_zero_or_pos q with hq0 | hq1
    · rw [hq0]
      simp [Nat.mod_eq_of_lt (show ent.offset + s < U64 by omega)]
    · have hdqpos : 0 < d * q := Nat.mul_pos hd0 hq1
      have hmul : (U64 - d) * q % U64 = U64 - d * q := by
        have h2 : U64 * q = U64 * (q - 1) + U64 := by
          rw [← Nat.mul_succ]
          congr 1
          omega
        have h3 : (U64 - d) * q = U64 * (q - 1) + (U64 - d * q) := by
          rw [Nat.sub_mul]
          have h4 : d * q ≤ U64 * q := Nat.mul_le_mul_right q (by omega)
          omega
        rw [h3, Nat.mul_add_mod, Nat.mod_eq_of_lt (by omega)]
      rw [hmul, Nat.mod_eq_of_lt (show ent.offset + s < U64 by omega)]
      have h5 : ent.offset + s + (U64 - d * q) = U64 + (ent.offset + s - d * q) := by
        omega
      rw [h5, Nat.add_mod_left, Nat.mod_eq_of_lt (by omega)]
  exact ⟨hcpn, hoff, by omega⟩

theorem C10_amended_witness :
    charsPerNewline ⟨"seqA", 10, 0, 5, 4⟩ = U64 - (5 - 4) ∧
    physOffset ⟨"seqA", 10, 0, 5, 4⟩ 5 = 0 + 5 - (5 - 4) * (5 / 5) ∧
    physOffset ⟨"seqA", 10, 0, 5, 4⟩ 5 ≤ 0 + 5 :=
  C10_amended ⟨"seqA", 10, 0, 5, 4⟩ 5 (by decide) (by norm_num [U64]) (by norm_num)

/-- C1: on every valid request against a source holding the bytes the
index describes, `Get` returns exactly `e - s` bytes, none of which is
the line-break byte, and the computed physical span contains exactly
`e - s` positions whose cycle position modulo line-width is below
line-base. -/
theorem C1_get_exact_newline_free (f : indexedFasta) (data : List Nat) (st : FastaState)
    (name : String) (ent : indexEntry) (seq : Nat → Nat) (s e : Nat)
    (hfound : f.seqs name = some ent)
    (hlb : 0 < ent.lineBase) (hlw : ent.lineBase ≤ ent.lineWidth)
    (hse : s < e) (he : e ≤ ent.length)
    (hdlen : data.length < 2 ^ 63)
    (hgd : goodData ent seq data)
    (hnl : ∀ j, j < ent.length → seq j ≠ newlineByte)
    (hinv : CacheInv data st) :
    ∃ out st2, Get f data st name s e = (.ok out, st2) ∧
      out.length = e - s ∧
      (∀ b ∈ out, b ≠ newlineByte) ∧
      spanDataCount ent s e = e - s := by
  have hU : (2 : Nat) ^ 63 < U64 := by norm_num [U64]
  have hbound : ent.offset + physLen ent < 2 ^ 63 := by
    have := hgd.1
    omega
  have hUe : e < U64 := by
    have := physLen_ge_length ent
    omega
  obtain ⟨st2, hget, hinv2⟩ :=
    Get_correct f data st name ent seq s e hfound hlb hlw hse he hdlen hgd hinv
  refine ⟨_, st2, hget, ?_, ?_, ?_⟩
  · rw [List.length_map, List.length_range']
  · intro b hb
    rw [List.mem_map] at hb
    obtain ⟨j, hj, rfl⟩ := hb
    rw [List.mem_range'_1] at hj
    exact hnl j (by omega)
  · have hil := sane_initLinePos ent s e hlb hlw hse he hbound
    have hcap := sane_capacity ent s e hlb hlw hse he hbound
    unfold spanDataCount
    rw [hil, hcap]
    have hfun : (fun i => decide ((psi ent.lineBase ent.lineWidth s % ent.lineWidth + i) %
          ent.lineWidth < ent.lineBase)) =
        (fun i => decide ((psi ent.lineBase ent.lineWidth s + i) % ent.lineWidth <
          ent.lineBase)) := by
      funext i
      rw [Nat.mod_add_mod]
    rw [hfun]
    have h5 : enumPos ent.lineBase ent.lineWidth (psi ent.lineBase ent.lineWidth s)
        (e - s + newlinesToRead ent s e * (ent.lineWidth - ent.lineBase)) =
        ((List.range (e - s + newlinesToRead ent s e * (ent.lineWidth - ent.lineBase))).filter
          (fun i => decide ((psi ent.lineBase ent.lineWidth s + i) % ent.lineWidth <
            ent.lineBase))).map (fun i => psi ent.lineBase ent.lineWidth s + i) := by
      unfold enumPos
      rw [List.range'_eq_map_range, List.filter_map]
      rfl
    have h6 := congrArg List.length h5
    rw [enumPos_span_entry ent s e hlb hlw hse hUe] at h6
    rw [List.length_map, List.length_map, List.length_range'] at h6
    omega

theorem C1_witness :
    ∃ out st2, Get (newLazyIndexed [⟨"seq1", 10, 0, 4, 5⟩])
        ("ACGT\nACGT\nAC\n".data.map Char.toNat) initialState "seq1" 2 8 =
        (.ok out, st2) ∧
      out.length = 8 - 2 ∧
      (∀ b ∈ out, b ≠ newlineByte) ∧
      spanDataCount ⟨"seq1", 10, 0, 4, 5⟩ 2 8 = 8 - 2 :=
  C1_get_exact_newline_free (newLazyIndexed [⟨"seq1", 10, 0, 4, 5⟩])
    ("ACGT\nACGT\nAC\n".data.map Char.toNat) initialState "seq1" ⟨"seq1", 10, 0, 4, 5⟩
    (fun j => ("ACGTACGTAC".data.map Char.toNat).getD j 0) 2 8
    (by decide) (by decide) (by decide) (by decide) (by decide) (by decide)
    (by decide) (by decide) (by decide)

/-- C2, counterexample.  On the engine built from the index line
`seq1\t10\t0\t4\t5` over the data bytes `ACGT\nACGT\nAC\n`,
Get("seq1", 2, 8) returns the 6-base string "GTACGT" (bases 2..7), not
the 4-base string "GTAC" the claim demands — a 6-base request cannot
return 4 bases. -/
theorem C2_counterexample :
    parseIndex ["seq1\t10\t0\t4\t5".data] = ParseOutcome.ok [⟨"seq1", 10, 0, 4, 5⟩] ∧
    (Get (newLazyIndexed [⟨"seq1", 10, 0, 4, 5⟩])
        ("ACGT\nACGT\nAC\n".data.map Char.toNat) initialState "seq1" 2 8).1 =
      GetResult.ok ("GTACGT".data.map Char.toNat) ∧
    GetResult.ok ("GTACGT".data.map Char.toNat) ≠
      GetResult.ok ("GTAC".data.map Char.toNat) := by
  refine ⟨by decide, by decide, by decide⟩

/-- C2, amended.  On that engine Get("seq1", 2, 8) returns "GTACGT"
(bases 2..7); the bases the worked example describes ("GT" of line 1
plus "AC" of line 2) are Get("seq1", 2, 6) = "GTAC". -/
theorem C2_amended :
    (Get (newLazyIndexed [⟨"seq1", 10, 0, 4, 5⟩])
        ("ACGT\nACGT\nAC\n".data.map Char.toNat) initialState "seq1" 2 8).1 =
      GetResult.ok ("GTACGT".data.map Char.toNat) ∧
    (Get (newLazyIndexed [⟨"seq1", 10, 0, 4, 5⟩])
        ("ACGT\nACGT\nAC\n".data.map Char.toNat) initialState "seq1" 2 6).1 =
      GetResult.ok ("GTAC".data.map Char.toNat) := by
  refine ⟨by decide, by decide⟩

/-- C3: for a sequence whose data file matches the index layout (the
last line terminated by its break bytes), Get(name, 0, length) computes
a physical span that stays within the file's extent, so the
unexpected-end-of-stream branch is not taken and Get succeeds — also
when the length is an exact multiple of line-base. -/
theorem C3_no_read_past_end (f : indexedFasta) (data : List Nat) (st : FastaState)
    (name : String) (ent : indexEntry) (seq : Nat → Nat)
    (hfound : f.seqs name = some ent)
    (hlb : 0 < ent.lineBase) (hlw : ent.lineBase ≤ ent.lineWidth)
    (hL : 0 < ent.length)
    (hdlen : data.length < 2 ^ 63)
    (hgd : goodData ent seq data)
    (hinv : CacheInv data st) :
    physOffset ent 0 + readCapacity ent 0 ent.length ≤ ent.offset + physLen ent ∧
    ∃ out st2, Get f data st name 0 ent.length = (.ok out, st2) := by
  have hU : (2 : Nat) ^ 63 < U64 := by norm_num [U64]
  have hbound : ent.offset + physLen ent < 2 ^ 63 := by
    have := hgd.1
    omega
  have hUe : ent.length < U64 := by
    have := physLen_ge_length ent
    omega
  constructor
  · rw [sane_physOffset ent 0 ent.length hlb hlw hL (le_refl _) hbound,
      sane_capacity ent 0 ent.length hlb hlw hL (le_refl _) hbound]
    have hspan := (span_bounds ent 0 ent.length hlb hlw hL hUe).2
    have hpsie := psi_le_physLen ent hlb hlw ent.length (le_refl _)
    omega
  · obtain ⟨st2, hget, _⟩ := Get_correct f data st name ent seq 0 ent.length hfound
      hlb hlw hL (le_refl _) hdlen hgd hinv
    exact ⟨_, st2, hget⟩

theorem C3_witness :
    physOffset ⟨"seq1", 8, 0, 4, 5⟩ 0 + readCapacity ⟨"seq1", 8, 0, 4, 5⟩ 0 8 ≤
      0 + physLen ⟨"seq1", 8, 0, 4, 5⟩ ∧
    ∃ out st2, Get (newLazyIndexed [⟨"seq1", 8, 0, 4, 5⟩])
        ("ACGT\nACGT\n".data.map Char.toNat) initialState "seq1" 0 8 =
        (.ok out, st2) :=
  C3_no_read_past_end (newLazyIndexed [⟨"seq1", 8, 0, 4, 5⟩])
    ("ACGT\nACGT\n".data.map Char.toNat) initialState "seq1" ⟨"seq1", 8, 0, 4, 5⟩
    (fun j => ("ACGTACGT".data.map Char.toNat).getD j 0)
    (by decide) (by decide) (by decide) (by decide) (by decide) (by decide) (by decide)

/-- C8: splitting a full read at any interior point and concatenating
the two parts gives the full read, on an unchanged source (the cache
state after the first call is threaded into the second). -/
theorem C8_concat_split (f : indexedFasta) (data : List Nat) (st : FastaState)
    (name : String) (ent : indexEntry) (seq : Nat → Nat) (k : Nat)
    (hfound : f.seqs name = some ent)
    (hlb : 0 < ent.lineBase) (hlw : ent.lineBase ≤ ent.lineWidth)
    (hk : 0 < k) (hkL : k < ent.length)
    (hdlen : data.length < 2 ^ 63)
    (hgd : goodData ent seq data)
    (hinv : CacheInv data st) :
    ∃ o1 o2 o3 st1 st2 st3,
      Get f data st name 0 k = (.ok o1, st1) ∧
      Get f data st1 name k ent.length = (.ok o2, st2) ∧
      Get f data st name 0 ent.length = (.ok o3, st3) ∧
      o1 ++ o2 = o3 := by
  obtain ⟨st1, h1, hinv1⟩ := Get_correct f data st name ent seq 0 k hfound hlb hlw
    hk (le_of_lt hkL) hdlen hgd hinv
  obtain ⟨st2, h2, _⟩ := Get_correct f data st1 name ent seq k ent.length hfound hlb hlw
    hkL (le_refl _) hdlen hgd hinv1
  obtain ⟨st3, h3, _⟩ := Get_correct f data st name ent seq 0 ent.length hfound hlb hlw
    (by omega) (le_refl _) hdlen hgd hinv
  refine ⟨_, _, _, st1, st2, st3, h1, h2, h3, ?_⟩
  rw [← List.map_append]
  congr 1
  have e0 : k - 0 = k := by omega
  have e1 : ent.length - 0 = ent.length := by omega
  rw [e0, e1]
  have h4 := List.range'_append 0 k (ent.length - k) 1
  simp only [Nat.one_mul, Nat.zero_add] at h4
  have e2 : ent.length - k + k = ent.length := by omega
  rw [e2] at h4
  exact h4

theorem C8_witness :
    ∃ o1 o2 o3 st1 st2 st3,
      Get (newLazyIndexed [⟨"seq1", 10, 0, 4, 5⟩])
        ("ACGT\nACGT\nAC\n".data.map Char.toNat) initialState "seq1" 0 3 =
        (.ok o1, st1) ∧
      Get (newLazyIndexed [⟨"seq1", 10, 0, 4, 5⟩])
        ("ACGT\nACGT\nAC\n".data.map Char.toNat) st1 "seq1" 3 10 =
        (.ok o2, st2) ∧
      Get (newLazyIndexed [⟨"seq1", 10, 0, 4, 5⟩])
        ("ACGT\nACGT\nAC\n".data.map Char.toNat) initialState "seq1" 0 10 =
        (.ok o3, st3) ∧
      o1 ++ o2 = o3 :=
  C8_concat_split (newLazyIndexed [⟨"seq1", 10, 0, 4, 5⟩])
    ("ACGT\nACGT\nAC\n".data.map Char.toNat) initialState "seq1" ⟨"seq1", 10, 0, 4, 5⟩
    (fun j => ("ACGTACGTAC".data.map Char.toNat).getD j 0) 3
    (by decide) (by decide) (by decide) (by decide) (by decide) (by decide)
    (by decide) (by decide)

end Fasta
